import Mathlib

/-!
Verification of the file-synchronization core of the `tkhrn-ruler` CLI
(`src/cli/commands/apply.ts`): the tree synchronizer with backup
(`copyCommandsWithBackup`), the nested configuration-directory locator
(`findNestedRulers`), the per-agent destination resolution of the
commands / skills / subagents stages, and the nested-project path
computation of `copyNestedCommands`.

Modelling conventions (shallow embedding):
* A directory listing, as `readdirSync(..., { withFileTypes: true })`
  presents it to the code, is the inductive `Forest`: a sequence of
  entries, each a file with content or a directory with its own
  listing.  (A single non-nested inductive is used instead of an
  entry/list nesting so that all functions compute by structural
  recursion.)
* The mutable destination file system is an association list from
  paths (segment lists) to file contents.  `copyFileSync` overwrites,
  and `renameSync` removes the source key and overwrites the target
  key silently (POSIX `rename(2)` semantics, which `fs.renameSync` has
  on all platforms via libuv).  Directory creation (`mkdirSync`) has
  no observable effect in this model, since only files carry content.
* `renameSync` is the one fallible operation the code guards with
  `try`/`catch`; it is given a failure oracle `rf : path → path → Bool`
  (arguments: rename source, rename target).  `copyFileSync` failures
  are not modelled (no claim depends on them).
* Node's `path.extname` / `path.basename(p, ext)` are modelled on the
  final path segment, character-exactly (last-dot rule, including the
  leading-dot special case).
-/

namespace TkhrnRuler

/-- A directory listing as `readdirSync` with file types presents it:
a sequence of entries, each either a file with its content or a
directory with its own listing. -/
inductive Forest where
  | nil
  | fileCons (name content : String) (rest : Forest)
  | dirCons (name : String) (sub rest : Forest)

/-- Helper for `extname`: the input is the reversed character list of a
name; the result is the reversed extension (up to and including the
first `'.'` seen, i.e. the last dot of the name), or `[]` when the name
has no extension.  A dot that is the first character of the name does
not start an extension (Node's hidden-file rule). -/
def extnameRev : List Char → List Char
  | [] => []
  | c :: rest =>
    if c = '.' then (if rest.isEmpty then [] else ['.'])
    else if (extnameRev rest).isEmpty then [] else c :: extnameRev rest

/-- Node `path.extname` on a single path segment, as a character list:
the substring from the last `'.'` to the end, or `[]` if there is no
dot or the only dot is the leading character. -/
def extnameL (cs : List Char) : List Char :=
  (extnameRev cs.reverse).reverse

/-- The backup name of `copyCommandsWithBackup`, on character lists:
`basename(p, extname(p)) ++ ".bak" ++ extname(p)`. -/
def bakNameL (cs : List Char) : List Char :=
  cs.take (cs.length - (extnameL cs).length) ++ (".bak".toList ++ extnameL cs)

/-- The backup name derivation of `copyCommandsWithBackup`, lines
250-252 of `apply.ts`: insert `.bak` between the stem and the
extension of the file name. -/
def bakName (s : String) : String :=
  String.mk (bakNameL s.data)

/-- A destination path: the list of path segments below the
synchronization root. -/
abbrev FPath := List String

/-- The destination file system: an association list from paths to file
contents.  The head entry for a key shadows later ones, so consing is
an overwriting write. -/
abbrev FS := List (FPath × String)

/-- `existsSync`/read: the content at a path, if a file is there. -/
def lookupFS : FS → FPath → Option String
  | [], _ => none
  | (p, c) :: rest, q => if p = q then some c else lookupFS rest q

/-- Remove every binding of a path (the source side of `renameSync`). -/
def removeFS : FS → FPath → FS
  | [], _ => []
  | (p, c) :: rest, q => if p = q then removeFS rest q else (p, c) :: removeFS rest q

/-- Observable actions of one synchronization pass, in order:
`backedUp` is the `renameSync` of a conflicting destination file to its
backup name (logged by the code), `backupFailed` is a failed rename
(warned and `continue`d by the code), `copied` is a `copyFileSync`. -/
inductive Event where
  | backedUp (src dst : FPath)
  | backupFailed (p : FPath)
  | copied (p : FPath)
deriving DecidableEq

/-- `copyCommandsWithBackup(source, dest)` (`apply.ts` lines 227-267,
bundled build lines 385-425), embedded over the listing of the source
directory, the destination directory path `d`, and the destination
file system.  Returns the final file system and the event trace.
`rf` is the failure oracle for `renameSync destPath backupPath`. -/
def sync (rf : FPath → FPath → Bool) : Forest → FPath → FS → FS × List Event
  | Forest.nil, _, fs => (fs, [])
  | Forest.dirCons name sub rest, d, fs =>
    let r1 := sync rf sub (d ++ [name]) fs
    let r2 := sync rf rest d r1.1
    (r2.1, r1.2 ++ r2.2)
  | Forest.fileCons name content rest, d, fs =>
    if name = ".gitkeep" then sync rf rest d fs
    else
      match lookupFS fs (d ++ [name]) with
      | some oldContent =>
        if rf (d ++ [name]) (d ++ [bakName name]) then
          let r := sync rf rest d fs
          (r.1, Event.backupFailed (d ++ [name]) :: r.2)
        else
          let fs2 : FS := (d ++ [name], content) ::
            (d ++ [bakName name], oldContent) :: removeFS fs (d ++ [name])
          let r := sync rf rest d fs2
          (r.1, Event.backedUp (d ++ [name]) (d ++ [bakName name]) ::
            Event.copied (d ++ [name]) :: r.2)
      | none =>
        let r := sync rf rest d ((d ++ [name], content) :: fs)
        (r.1, Event.copied (d ++ [name]) :: r.2)

/-- The rename-never-fails oracle (the normal run). -/
def noFail : FPath → FPath → Bool := fun _ _ => false

/-- The non-placeholder files of a source tree, as
(directory path, file name, content) triples in traversal order. -/
def flatten : Forest → FPath → List (FPath × String × String)
  | Forest.nil, _ => []
  | Forest.fileCons name content rest, d =>
    (if name = ".gitkeep" then [] else [(d, name, content)]) ++ flatten rest d
  | Forest.dirCons name sub rest, d => flatten sub (d ++ [name]) ++ flatten rest d

/-- The destination path of a flattened source file. -/
def destPath (u : FPath × String × String) : FPath := u.1 ++ [u.2.1]

/-- The backup path the synchronizer would use for a flattened source
file's destination. -/
def bakPath (u : FPath × String × String) : FPath := u.1 ++ [bakName u.2.1]

/-- `name.startsWith('.')`. -/
def dotLead (s : String) : Bool :=
  match s.data with
  | '.' :: _ => true
  | _ => false

/-- `findNestedRulers(rootPath, currentPath, results)` (`apply.ts`
lines 193-221, bundled build lines 351-379), embedded over the listing
of the current directory.  `root` and `cur` are segment-list paths;
results are produced in the code's push order. -/
def findNestedAux (root : List String) : List String → Forest → List (List String)
  | _, Forest.nil => []
  | cur, Forest.fileCons _ _ rest => findNestedAux root cur rest
  | cur, Forest.dirCons name sub rest =>
    (if dotLead name = true ∧ name ≠ ".ruler" then []
     else if name = "node_modules" ∨ name = "dist" ∨ name = ".git" then []
     else if name = ".ruler" ∧ cur ++ [name] ≠ root ++ [".ruler"] then [cur ++ [name]]
     else findNestedAux root (cur ++ [name]) sub)
    ++ findNestedAux root cur rest

/-- The top-level call `findNestedRulers(rootPath)`: traversal starts
at the root itself. -/
def findNestedRulers (root : List String) (tree : Forest) : List (List String) :=
  findNestedAux root root tree

/-- A TOML value as the unchecked `parse(tomlContent) as RulerConfig`
cast can deliver it at runtime for the `enabled` field: the TypeScript
annotation promises a boolean, but nothing enforces it. -/
inductive TomlVal where
  | bool (b : Bool)
  | str (s : String)
  | int (n : Int)
deriving DecidableEq

/-- The `AgentConfig` interface of `apply.ts` (bundled build lines
141-147): every field optional. -/
structure AgentConfig where
  enabled : Option TomlVal := none
  command_path : Option String := none
  skills_path : Option String := none
  subagents_path : Option String := none
deriving DecidableEq

/-- The `RulerConfig` interface: the optional `agents` table, as an
association list (first binding wins, as in a parsed TOML table). -/
structure RulerConfig where
  agents : List (String × AgentConfig) := []

/-- `agents[agentName]`: the lookup behind `agents[agentName] || {}`. -/
def lookupAgent : List (String × AgentConfig) → String → Option AgentConfig
  | [], _ => none
  | (k, v) :: rest, n => if k = n then some v else lookupAgent rest n

/-- JavaScript `a || b` on optional strings: `undefined` and the empty
string are falsy, so both fall through to `b`. -/
def jsOrPath : Option String → Option String → Option String
  | some s, d => if s = "" then d else some s
  | none, d => d

/-- `DEFAULT_COMMAND_PATHS` (bundled build lines 157-161); a record
access on a missing key is `undefined`. -/
def DEFAULT_COMMAND_PATHS (a : String) : Option String :=
  if a = "cursor" then some ".cursor/commands"
  else if a = "claude" then some ".claude/commands"
  else if a = "codex" then some ".codex/commands"
  else none

/-- `DEFAULT_SKILLS_PATHS` (bundled build lines 164-168). -/
def DEFAULT_SKILLS_PATHS (a : String) : Option String :=
  if a = "cursor" then some ".cursor/skills"
  else if a = "claude" then some ".claude/skills"
  else if a = "codex" then some ".codex/skills"
  else none

/-- `DEFAULT_SUBAGENTS_PATHS` (bundled build lines 171-175): claude
deliberately maps subagents onto its commands directory. -/
def DEFAULT_SUBAGENTS_PATHS (a : String) : Option String :=
  if a = "cursor" then some ".cursor/subagents"
  else if a = "claude" then some ".claude/commands"
  else if a = "codex" then some ".codex/subagents"
  else none

/-- `const defaultAgents = ['cursor', 'claude', 'codex']`. -/
def defaultAgents : List String := ["cursor", "claude", "codex"]

/-- Node `path.join(a, b)` for an absolute normalized `a` and a
separator-normalized relative `b`, as the call sites use it. -/
def joinStr (a b : String) : String := a ++ "/" ++ b

/-- What the `copyCommands` loop body (bundled build lines 268-291)
decides for one agent: skip it, warn that no path is configured, or
copy into a destination directory. -/
inductive AgentAction where
  | skip
  | warnNoPath
  | copy (dest : String)
deriving DecidableEq

/-- Per-agent destination resolution of the commands stage
(`copyCommands`, bundled build lines 268-283): skip on
`enabled === false`, else `command_path || DEFAULT_COMMAND_PATHS[a]`,
warn if that is still falsy, else copy to `join(cwd, commandPath)`. -/
def agentCommandAction (config : RulerConfig) (cwd a : String) : AgentAction :=
  let cfg := (lookupAgent config.agents a).getD {}
  if cfg.enabled = some (TomlVal.bool false) then AgentAction.skip
  else
    match jsOrPath cfg.command_path (DEFAULT_COMMAND_PATHS a) with
    | none => AgentAction.warnNoPath
    | some p => AgentAction.copy (joinStr cwd p)

/-- Per-agent destination resolution of the skills stage
(`copySkills`, bundled build lines 447-462). -/
def agentSkillsAction (config : RulerConfig) (cwd a : String) : AgentAction :=
  let cfg := (lookupAgent config.agents a).getD {}
  if cfg.enabled = some (TomlVal.bool false) then AgentAction.skip
  else
    match jsOrPath cfg.skills_path (DEFAULT_SKILLS_PATHS a) with
    | none => AgentAction.warnNoPath
    | some p => AgentAction.copy (joinStr cwd p)

/-- Per-agent destination resolution of the subagents stage
(`copySubagents`, bundled build lines 549-564). -/
def agentSubagentsAction (config : RulerConfig) (cwd a : String) : AgentAction :=
  let cfg := (lookupAgent config.agents a).getD {}
  if cfg.enabled = some (TomlVal.bool false) then AgentAction.skip
  else
    match jsOrPath cfg.subagents_path (DEFAULT_SUBAGENTS_PATHS a) with
    | none => AgentAction.warnNoPath
    | some p => AgentAction.copy (joinStr cwd p)

/-- `true` iff `pat` is a leading block of `s` (character-exact). -/
def leadMatch : List Char → List Char → Bool
  | [], _ => true
  | _ :: _, [] => false
  | p :: ps, c :: cs => if p = c then leadMatch ps cs else false

/-- JavaScript `s.replace(pat, '')` for a plain-string pattern: delete
the first occurrence of `pat`, if any. -/
def replaceOnce (pat : List Char) : List Char → List Char
  | [] => []
  | c :: rest =>
    if leadMatch pat (c :: rest) then (c :: rest).drop pat.length
    else c :: replaceOnce pat rest

/-- JavaScript `s.replace(/\\.ruler$/, '')` exactly as the source
writes it (`apply.ts` line 159, bundled build line 317): the regex
matches a literal backslash, then any character except a newline, then
`ruler`, at the end of the string — it does NOT match the intended
`/.ruler` suffix of a slash-separated path. -/
def replaceBackslashRulerSuffix (s : List Char) : List Char :=
  match s.reverse with
  | 'r' :: 'e' :: 'l' :: 'u' :: 'r' :: c :: '\\' :: rest =>
    if c = '\n' then s else rest.reverse
  | _ => s

/-- JavaScript `s.replace(/^\//, '')` or `s.replace(/^\\/, '')`:
drop one leading occurrence of the character. -/
def dropLeadChar (c : Char) : List Char → List Char
  | [] => []
  | x :: rest => if x = c then rest else x :: rest

/-- The nested-project path computation of `copyNestedCommands`
(`apply.ts` lines 156-162, bundled build lines 314-320): strip `cwd`,
apply the (mis-escaped) `.ruler`-suffix regex, strip a leading slash or
backslash, then rejoin onto `cwd` (or return `cwd` when the relative
path came out empty). -/
def nestedProjectPathL (cwd p : List Char) : List Char :=
  let rel := dropLeadChar '\\' (dropLeadChar '/' (replaceBackslashRulerSuffix (replaceOnce cwd p)))
  if rel = [] then cwd else cwd ++ '/' :: rel

/-- String-level wrapper of `nestedProjectPathL`. -/
def nestedProjectPathS (cwd p : String) : String :=
  String.mk (nestedProjectPathL cwd.data p.data)

/-! ### Basic facts about the backup-name derivation -/

theorem strEqOfData {s t : String} (h : s.data = t.data) : s = t :=
  congrArg String.mk h

theorem extnameRev_of_no_dot {l : List Char} (h : ∀ c ∈ l, c ≠ '.') :
    extnameRev l = [] := by
  induction l with
  | nil => rfl
  | cons c rest ih =>
    have hc : c ≠ '.' := h c (List.mem_cons_self _ _)
    have hrest : extnameRev rest = [] := ih (fun x hx => h x (List.mem_cons_of_mem _ hx))
    simp [extnameRev, hc, hrest]

theorem extnameRev_split {e s : List Char} (he : ∀ c ∈ e, c ≠ '.') (hs : s ≠ []) :
    extnameRev (e ++ '.' :: s) = e ++ ['.'] := by
  induction e with
  | nil =>
    have : s.isEmpty = false := by
      cases s with
      | nil => exact absurd rfl hs
      | cons a l => rfl
    simp [extnameRev, this]
  | cons c e' ih =>
    have hc : c ≠ '.' := he c (List.mem_cons_self _ _)
    have ihe : extnameRev (e' ++ '.' :: s) = e' ++ ['.'] :=
      ih (fun x hx => he x (List.mem_cons_of_mem _ hx))
    have hne : (extnameRev (e' ++ '.' :: s)).isEmpty = false := by
      rw [ihe]; simp
    simp [extnameRev, hc, hne, ihe]

theorem extnameL_of_no_dot {l : List Char} (h : ∀ c ∈ l, c ≠ '.') :
    extnameL l = [] := by
  have : ∀ c ∈ l.reverse, c ≠ '.' := fun c hc => h c (List.mem_reverse.1 hc)
  simp [extnameL, extnameRev_of_no_dot this]

theorem extnameL_split {stemD extD : List Char} (hstem : stemD ≠ [])
    (hext : ∀ c ∈ extD, c ≠ '.') :
    extnameL (stemD ++ '.' :: extD) = '.' :: extD := by
  have hrev : (stemD ++ '.' :: extD).reverse = extD.reverse ++ '.' :: stemD.reverse := by
    simp
  have hre : ∀ c ∈ extD.reverse, c ≠ '.' := fun c hc => hext c (List.mem_reverse.1 hc)
  have hsr : stemD.reverse ≠ [] := by
    simpa using hstem
  rw [extnameL, hrev, extnameRev_split hre hsr]
  simp

theorem extnameRev_length_le (l : List Char) : (extnameRev l).length ≤ l.length := by
  induction l with
  | nil => simp [extnameRev]
  | cons c rest ih =>
    by_cases hc : c = '.'
    · by_cases hr : rest.isEmpty
      · simp [extnameRev, hc, hr]
      · simp only [extnameRev, hc, if_true, hr, if_false]
        simp
    · by_cases hr : (extnameRev rest).isEmpty
      · simp [extnameRev, hc, hr]
      · have h2 := ih
        simp only [extnameRev, if_neg hc, hr, Bool.false_eq_true, if_false, List.length_cons]
        omega

theorem extnameL_length_le (l : List Char) : (extnameL l).length ≤ l.length := by
  have := extnameRev_length_le l.reverse
  simpa [extnameL] using this

theorem bakNameL_length (cs : List Char) : (bakNameL cs).length = cs.length + 4 := by
  have hle := extnameL_length_le cs
  simp only [bakNameL, List.length_append, List.length_take]
  have : ".bak".toList.length = 4 := by decide
  omega

/-- The backup name is never the original name (it is four characters
longer), so a rename target never equals its source. -/
theorem bakName_ne (s : String) : bakName s ≠ s := by
  intro h
  have hd : (bakName s).data = s.data := by rw [h]
  have : (bakNameL s.data).length = s.data.length := by
    simpa [bakName] using congrArg List.length hd
  have := bakNameL_length s.data
  omega

theorem bakNameL_no_dot {cs : List Char} (h : ∀ c ∈ cs, c ≠ '.') :
    bakNameL cs = cs ++ ".bak".toList := by
  simp [bakNameL, extnameL_of_no_dot h, List.take_length]

theorem bakNameL_split {stemD extD : List Char} (hstem : stemD ≠ [])
    (hext : ∀ c ∈ extD, c ≠ '.') :
    bakNameL (stemD ++ '.' :: extD) = stemD ++ ".bak".toList ++ '.' :: extD := by
  have he := extnameL_split hstem hext
  have hlen : (stemD ++ '.' :: extD).length - (extnameL (stemD ++ '.' :: extD)).length
      = stemD.length := by
    rw [he]; simp
  rw [bakNameL, hlen, he]
  have : stemD ++ '.' :: extD = stemD ++ ('.' :: extD) := rfl
  rw [this, List.take_left]
  simp

theorem data_ne_nil {s : String} (h : s ≠ "") : s.data ≠ [] := by
  intro hd
  exact h (strEqOfData (by simpa using hd))

/-- C4: the nested-project path computation is claimed to strip the
trailing `.ruler` segment from a discovered nested configuration root
for every path-separator convention.  The code's regex
`/\\.ruler$/` only matches a literal backslash before `.ruler`, so on
slash-separated paths nothing is stripped and the agent directories
are joined onto the `.ruler` directory itself: at root `/proj` with
the nested root `/proj/packages/app/.ruler`, the computed nested
project path keeps the `.ruler` segment instead of being
`/proj/packages/app`; only a backslash-separated suffix
`\app\.ruler` is stripped.  This contradicts the claim (and the
intent visible in the surrounding code), witnessing the code bug. -/
theorem claim4_nested_path_keeps_ruler_segment :
    nestedProjectPathS "/proj" "/proj/packages/app/.ruler" = "/proj/packages/app/.ruler"
    ∧ nestedProjectPathS "/proj" "/proj/packages/app/.ruler" ≠ "/proj/packages/app"
    ∧ replaceBackslashRulerSuffix "\\packages\\app\\.ruler".data = "\\packages\\app".data := by
  refine ⟨by decide, by decide, by decide⟩

/-- C5: backup-name derivation is deterministic and inserts `.bak`
before the extension: every name of the form `stem.ext` (nonempty
stem, dot-free extension) maps to `stem.bak.ext`, and every dot-free
name maps to `name.bak`. -/
theorem claim5_bakname_derivation :
    (∀ stem ext : String, stem ≠ "" → (∀ c ∈ ext.data, c ≠ '.') →
      bakName (stem ++ "." ++ ext) = stem ++ ".bak." ++ ext)
    ∧ (∀ name : String, (∀ c ∈ name.data, c ≠ '.') → bakName name = name ++ ".bak") := by
  constructor
  · intro stem ext hstem hext
    apply strEqOfData
    have hdat : (stem ++ "." ++ ext).data = stem.data ++ '.' :: ext.data := by
      rw [String.data_append, String.data_append]
      simp
    have : (bakName (stem ++ "." ++ ext)).data = bakNameL (stem ++ "." ++ ext).data := rfl
    rw [this, hdat, bakNameL_split (data_ne_nil hstem) hext]
    rw [String.data_append, String.data_append]
    simp
  · intro name hname
    apply strEqOfData
    have : (bakName name).data = bakNameL name.data := rfl
    rw [this, bakNameL_no_dot hname, String.data_append]
    rfl

/-! ### File-system association-list lemmas -/

theorem lookupFS_removeFS_self (fs : FS) (q : FPath) :
    lookupFS (removeFS fs q) q = none := by
  induction fs with
  | nil => rfl
  | cons e rest ih =>
    obtain ⟨p, c⟩ := e
    by_cases hpq : p = q
    · simpa [removeFS, hpq] using ih
    · simp [removeFS, hpq, lookupFS, ih]

theorem lookupFS_removeFS_ne (fs : FS) {q r : FPath} (h : r ≠ q) :
    lookupFS (removeFS fs q) r = lookupFS fs r := by
  induction fs with
  | nil => rfl
  | cons e rest ih =>
    obtain ⟨p, c⟩ := e
    by_cases hpq : p = q
    · subst hpq
      have hpr : ¬ (p = r) := fun hh => h hh.symm
      simp [removeFS, lookupFS, hpr, ih]
    · simp [removeFS, hpq, lookupFS, ih]

theorem lookupFS_append_of_not_mem {l1 : FS} (l2 : FS) {q : FPath}
    (h : q ∉ l1.map Prod.fst) :
    lookupFS (l1 ++ l2) q = lookupFS l2 q := by
  induction l1 with
  | nil => rfl
  | cons e rest ih =>
    obtain ⟨p, c⟩ := e
    have hp : p ≠ q := by
      intro hh; exact h (by simp [hh])
    have hr : q ∉ rest.map Prod.fst := fun hh => h (by simp [hh])
    simp [lookupFS, hp, ih hr]

theorem lookupFS_eq_none_of_not_mem {fs : FS} {q : FPath}
    (h : q ∉ fs.map Prod.fst) : lookupFS fs q = none := by
  induction fs with
  | nil => rfl
  | cons e rest ih =>
    obtain ⟨p, c⟩ := e
    have hp : p ≠ q := by
      intro hh; exact h (by simp [hh])
    have hr : q ∉ rest.map Prod.fst := fun hh => h (by simp [hh])
    simp [lookupFS, hp, ih hr]

theorem lookupFS_of_mem_nodup {fs : FS} {p : FPath} {c : String}
    (hnd : (fs.map Prod.fst).Nodup) (hmem : (p, c) ∈ fs) :
    lookupFS fs p = some c := by
  induction fs with
  | nil => cases hmem
  | cons e rest ih =>
    obtain ⟨p', c'⟩ := e
    rcases List.mem_cons.1 hmem with h | h
    · cases h
      simp [lookupFS]
    · have hp' : p' ≠ p := by
        intro hh
        subst hh
        have : p' ∈ rest.map Prod.fst := List.mem_map.2 ⟨(p', c), h, rfl⟩
        exact (List.nodup_cons.1 hnd).1 this
      simp [lookupFS, hp', ih (List.nodup_cons.1 hnd).2 h]

theorem mem_of_lookupFS_some {fs : FS} {p : FPath} {c : String}
    (h : lookupFS fs p = some c) : (p, c) ∈ fs := by
  induction fs with
  | nil => cases h
  | cons e rest ih =>
    obtain ⟨p', c'⟩ := e
    by_cases hp : p' = p
    · simp only [lookupFS, hp, if_true] at h
      injection h with h
      simp [hp, h]
    · simp only [lookupFS, hp, if_false] at h
      exact List.mem_cons_of_mem _ (ih h)

/-! ### The synchronizer only touches source destination paths and
their backup paths -/

/-- Frame property of `copyCommandsWithBackup`: a destination path that
is neither the destination of a source file nor the backup path of one
is untouched by the pass. -/
theorem sync_frame (rf : FPath → FPath → Bool) (t : Forest) (d : FPath) (fs : FS)
    (q : FPath)
    (hp : q ∉ (flatten t d).map destPath) (hb : q ∉ (flatten t d).map bakPath) :
    lookupFS (sync rf t d fs).1 q = lookupFS fs q := by
  induction t generalizing d fs with
  | nil => simp [sync]
  | fileCons n c rest ih =>
    by_cases hg : n = ".gitkeep"
    · simp only [flatten, hg, if_true, List.nil_append] at hp hb
      simpa [sync, hg] using ih d fs hp hb
    · simp only [flatten, hg, if_false, List.singleton_append, List.map_cons,
        List.mem_cons, destPath, bakPath, not_or] at hp hb
      obtain ⟨hq1, hp'⟩ := hp
      obtain ⟨hq2, hb'⟩ := hb
      have hq1' : ¬ (d ++ [n] = q) := fun hh => hq1 hh.symm
      have hq2' : ¬ (d ++ [bakName n] = q) := fun hh => hq2 hh.symm
      rcases hL : lookupFS fs (d ++ [n]) with _ | old
      · simp only [sync, hg, if_false, hL]
        rw [ih d _ hp' hb']
        simp [lookupFS, hq1']
      · rcases hrf : rf (d ++ [n]) (d ++ [bakName n]) with _ | _
        · simp only [sync, hg, if_false, hL, hrf, Bool.false_eq_true]
          rw [ih d _ hp' hb']
          simp only [lookupFS, hq1', if_false, hq2']
          exact lookupFS_removeFS_ne fs hq1
        · simp only [sync, hg, if_false, hL, hrf]
          exact ih d fs hp' hb'
  | dirCons n sub rest ihs ihr =>
    simp only [flatten, List.map_append, List.mem_append, not_or] at hp hb
    simp only [sync]
    rw [ihr d _ hp.2 hb.2, ihs (d ++ [n]) fs hp.1 hb.1]

/-! ### Synchronizing into fresh destinations -/

/-- When every source destination path is fresh (and the source tree
has no duplicate destination paths), the pass copies exactly the
non-placeholder source files, in traversal order, and the event trace
is pure copies. -/
theorem sync_fresh (rf : FPath → FPath → Bool) (t : Forest) (d : FPath) (fs : FS)
    (hnd : ((flatten t d).map destPath).Nodup)
    (hfresh : ∀ p ∈ (flatten t d).map destPath, lookupFS fs p = none) :
    (sync rf t d fs).1 = ((flatten t d).map (fun u => (destPath u, u.2.2))).reverse ++ fs
    ∧ (sync rf t d fs).2 = (flatten t d).map (fun u => Event.copied (destPath u)) := by
  induction t generalizing d fs with
  | nil => simp [sync, flatten]
  | fileCons n c rest ih =>
    by_cases hg : n = ".gitkeep"
    · simp only [flatten, hg, if_true, List.nil_append] at hnd hfresh ⊢
      simpa [sync, hg] using ih d fs hnd hfresh
    · simp only [flatten, hg, if_false, List.singleton_append, List.map_cons] at hnd hfresh ⊢
      have hL : lookupFS fs (d ++ [n]) = none := hfresh _ (List.mem_cons_self _ _)
      have hnotin : destPath (d, n, c) ∉ (flatten rest d).map destPath :=
        (List.nodup_cons.1 hnd).1
      have hfresh' : ∀ p ∈ (flatten rest d).map destPath,
          lookupFS ((d ++ [n], c) :: fs) p = none := by
        intro p hpmem
        have hne : ¬ (d ++ [n] = p) := by
          intro hh
          exact hnotin (by simpa [destPath, hh] using hpmem)
        simp [lookupFS, hne, hfresh p (List.mem_cons_of_mem _ hpmem)]
      obtain ⟨ih1, ih2⟩ := ih d ((d ++ [n], c) :: fs) (List.nodup_cons.1 hnd).2 hfresh'
      constructor
      · simp only [sync, hg, if_false, hL, ih1, destPath]
        simp
      · simp only [sync, hg, if_false, hL, ih2, destPath]
  | dirCons n sub rest ihs ihr =>
    simp only [flatten, List.map_append] at hnd hfresh ⊢
    have hnds := (List.nodup_append.1 hnd).1
    have hndr := (List.nodup_append.1 hnd).2.1
    have hdisj := (List.nodup_append.1 hnd).2.2
    obtain ⟨ih1, ih2⟩ := ihs (d ++ [n]) fs hnds
      (fun p hpmem => hfresh p (List.mem_append_left _ hpmem))
    have hfresh' : ∀ p ∈ (flatten rest d).map destPath,
        lookupFS (sync rf sub (d ++ [n]) fs).1 p = none := by
      intro p hpmem
      rw [ih1]
      have hnot : p ∉ (((flatten sub (d ++ [n])).map
          (fun u => (destPath u, u.2.2))).reverse).map Prod.fst := by
        intro hmem
        simp only [List.map_reverse, List.mem_reverse, List.map_map] at hmem
        have : p ∈ (flatten sub (d ++ [n])).map destPath := by
          simpa [Function.comp] using hmem
        exact hdisj this hpmem
      rw [lookupFS_append_of_not_mem fs hnot]
      exact hfresh p (List.mem_append_right _ hpmem)
    obtain ⟨ih1r, ih2r⟩ := ihr d _ hndr hfresh'
    constructor
    · simp only [sync]
      rw [ih1r, ih1]
      simp [List.reverse_append, List.append_assoc]
    · simp only [sync]
      rw [ih2r, ih2]

/-- C1: synchronizing a source tree into an initially empty (or
absent) destination terminates with the destination containing every
non-`.gitkeep` source file at its matching relative path with
identical content — and nothing else — and the event trace consists of
copies only: no backup rename happens (no `.bak` file is created) and
no backup failure occurs.  The `Nodup` hypothesis says distinct source
files map to distinct destination paths, which every tree produced by
`readdirSync` satisfies since sibling names are unique. -/
theorem claim1_sync_into_empty_dest (rf : FPath → FPath → Bool) (t : Forest)
    (hnd : ((flatten t []).map destPath).Nodup) :
    (∀ u ∈ flatten t [], lookupFS (sync rf t [] []).1 (destPath u) = some u.2.2)
    ∧ (∀ q c, lookupFS (sync rf t [] []).1 q = some c →
        ∃ u ∈ flatten t [], destPath u = q ∧ u.2.2 = c)
    ∧ (sync rf t [] []).2 = (flatten t []).map (fun u => Event.copied (destPath u)) := by
  obtain ⟨h1, h2⟩ := sync_fresh rf t [] [] hnd (fun p _ => rfl)
  have hkeys : ((((flatten t []).map (fun u => (destPath u, u.2.2))).reverse ++ []).map
      Prod.fst).Nodup := by
    simp only [List.append_nil, List.map_reverse, List.nodup_reverse, List.map_map]
    simpa [Function.comp] using hnd
  refine ⟨?_, ?_, h2⟩
  · intro u hu
    rw [h1]
    apply lookupFS_of_mem_nodup hkeys
    simp only [List.append_nil, List.mem_reverse, List.mem_map]
    exact ⟨u, hu, rfl⟩
  · intro q c hq
    rw [h1] at hq
    have hmem := mem_of_lookupFS_some hq
    simp only [List.append_nil, List.mem_reverse, List.mem_map] at hmem
    obtain ⟨u, hu, hueq⟩ := hmem
    refine ⟨u, hu, ?_, ?_⟩
    · exact congrArg Prod.fst hueq
    · exact congrArg Prod.snd hueq

/-! ### The fate of a single source file during a pass -/

theorem pathNeBakSeg (d : FPath) (n : String) : d ++ [n] ≠ d ++ [bakName n] := by
  intro h
  have hn : n = bakName n := by simpa using h
  exact bakName_ne n hn.symm

theorem bakPaths_not_mem {l : List (FPath × String × String)} {pT bT : FPath}
    (hni : ∀ u ∈ l, destPath u ≠ pT → bakPath u ≠ pT ∧ bakPath u ≠ bT)
    (hp : pT ∉ l.map destPath) :
    pT ∉ l.map bakPath ∧ bT ∉ l.map bakPath := by
  constructor <;> intro hmem <;> obtain ⟨u, hu, hueq⟩ := List.mem_map.1 hmem
  · exact ((hni u hu (fun hh => hp (hh ▸ List.mem_map_of_mem _ hu))).1) hueq
  · exact ((hni u hu (fun hh => hp (hh ▸ List.mem_map_of_mem _ hu))).2) hueq

/-- What the pass does to one designated source file `(dT, nT, cT)`,
under non-interference hypotheses (no other source file's destination
or backup path collides with this file's destination or backup path):
if its destination is initially absent it ends up holding the source
content; if present and the backup rename succeeds, the old content
moves to the backup path, the source content lands at the destination,
and the rename is on the trace; if present and the backup rename
fails, the destination keeps its old content and the failure is on the
trace. -/
theorem sync_target (rf : FPath → FPath → Bool) (dT : FPath) (nT cT : String)
    (t : Forest) (d : FPath) (fs : FS)
    (hmem : (dT, nT, cT) ∈ flatten t d)
    (hnd : ((flatten t d).map destPath).Nodup)
    (hni : ∀ u ∈ flatten t d, destPath u ≠ dT ++ [nT] →
      bakPath u ≠ dT ++ [nT] ∧ bakPath u ≠ dT ++ [bakName nT])
    (hbn : dT ++ [bakName nT] ∉ (flatten t d).map destPath) :
    (lookupFS fs (dT ++ [nT]) = none →
      lookupFS (sync rf t d fs).1 (dT ++ [nT]) = some cT)
    ∧ (∀ cOld, lookupFS fs (dT ++ [nT]) = some cOld →
        rf (dT ++ [nT]) (dT ++ [bakName nT]) = false →
        lookupFS (sync rf t d fs).1 (dT ++ [nT]) = some cT
        ∧ lookupFS (sync rf t d fs).1 (dT ++ [bakName nT]) = some cOld
        ∧ Event.backedUp (dT ++ [nT]) (dT ++ [bakName nT]) ∈ (sync rf t d fs).2)
    ∧ (∀ cOld, lookupFS fs (dT ++ [nT]) = some cOld →
        rf (dT ++ [nT]) (dT ++ [bakName nT]) = true →
        lookupFS (sync rf t d fs).1 (dT ++ [nT]) = some cOld
        ∧ Event.backupFailed (dT ++ [nT]) ∈ (sync rf t d fs).2) := by
  induction t generalizing d fs with
  | nil => cases hmem
  | fileCons n c rest ih =>
    by_cases hg : n = ".gitkeep"
    · simp only [flatten, hg, if_true, List.nil_append] at hmem hnd hni hbn
      simpa [sync, hg] using ih d fs hmem hnd hni hbn
    · simp only [flatten, hg, if_false, List.singleton_append, List.map_cons,
        List.mem_cons, destPath, not_or] at hmem hnd hni hbn
      have hnd1 : d ++ [n] ∉ (flatten rest d).map destPath := by
        have := (List.nodup_cons.1 hnd).1
        simpa [destPath] using this
      have hnd2 : ((flatten rest d).map destPath).Nodup := (List.nodup_cons.1 hnd).2
      have hniR : ∀ u ∈ flatten rest d, destPath u ≠ dT ++ [nT] →
          bakPath u ≠ dT ++ [nT] ∧ bakPath u ≠ dT ++ [bakName nT] :=
        fun u hu => hni u (Or.inr hu)
      rcases hmem with heq | hmemrest
      · -- the head file is the designated one
        simp only [Prod.mk.injEq] at heq
        obtain ⟨hd, hn, hc⟩ := heq
        subst hd; subst hn; subst hc
        have hpT_notP : dT ++ [nT] ∉ (flatten rest dT).map destPath := hnd1
        have hrestbak := bakPaths_not_mem hniR hpT_notP
        have hbT_notP : dT ++ [bakName nT] ∉ (flatten rest dT).map destPath := hbn.2
        have hpb := pathNeBakSeg dT nT
        refine ⟨?_, ?_, ?_⟩
        · intro hnone
          simp only [sync, hg, if_false, hnone]
          rw [sync_frame rf rest _ _ _ hpT_notP hrestbak.1]
          simp [lookupFS]
        · intro cOld hsome hrff
          simp only [sync, hg, if_false, hsome, hrff, Bool.false_eq_true, if_false]
          refine ⟨?_, ?_, ?_⟩
          · rw [sync_frame rf rest _ _ _ hpT_notP hrestbak.1]
            simp [lookupFS]
          · rw [sync_frame rf rest _ _ _ hbT_notP hrestbak.2]
            simp [lookupFS, fun hh => hpb hh]
          · simp
        · intro cOld hsome hrft
          simp only [sync, hg, if_false, hsome, hrft, if_true]
          refine ⟨?_, ?_⟩
          · rw [sync_frame rf rest _ _ _ hpT_notP hrestbak.1]
            exact hsome
          · simp
      · -- the head file is a different file
        have hpT_inP : dT ++ [nT] ∈ (flatten rest d).map destPath := by
          have : destPath (dT, nT, cT) ∈ (flatten rest d).map destPath :=
            List.mem_map_of_mem _ hmemrest
          simpa [destPath] using this
        have hhead_ne : d ++ [n] ≠ dT ++ [nT] := fun hh => hnd1 (hh ▸ hpT_inP)
        have hheadbak := hni (d, n, c) (Or.inl rfl) (by simpa [destPath] using hhead_ne)
        have hheadbak1 : d ++ [bakName n] ≠ dT ++ [nT] := by
          simpa [bakPath] using hheadbak.1
        have hhead_ne_bT : d ++ [n] ≠ dT ++ [bakName nT] := fun hh => hbn.1 hh.symm
        have hbnR : dT ++ [bakName nT] ∉ (flatten rest d).map destPath := hbn.2
        rcases hL : lookupFS fs (d ++ [n]) with _ | old
        · -- head is fresh: it writes only its own destination
          have hpres : lookupFS ((d ++ [n], c) :: fs) (dT ++ [nT])
              = lookupFS fs (dT ++ [nT]) := by
            simp [lookupFS, hhead_ne]
          obtain ⟨ih1, ih2, ih3⟩ := ih d ((d ++ [n], c) :: fs) hmemrest hnd2 hniR hbnR
          refine ⟨?_, ?_, ?_⟩
          · intro hnone
            simp only [sync, hg, if_false, hL]
            exact ih1 (hpres.trans hnone)
          · intro cOld hsome hrff
            simp only [sync, hg, if_false, hL]
            obtain ⟨ha, hb, hcv⟩ := ih2 cOld (hpres.trans hsome) hrff
            exact ⟨ha, hb, List.mem_cons_of_mem _ hcv⟩
          · intro cOld hsome hrft
            simp only [sync, hg, if_false, hL]
            obtain ⟨ha, hb⟩ := ih3 cOld (hpres.trans hsome) hrft
            exact ⟨ha, List.mem_cons_of_mem _ hb⟩
        · rcases hrf : rf (d ++ [n]) (d ++ [bakName n]) with _ | _
          · -- head conflicts and its backup rename succeeds
            have hpres : lookupFS ((d ++ [n], c) ::
                (d ++ [bakName n], old) :: removeFS fs (d ++ [n])) (dT ++ [nT])
                = lookupFS fs (dT ++ [nT]) := by
              simp only [lookupFS, hhead_ne, if_false, hheadbak1]
              exact lookupFS_removeFS_ne fs (fun hh => hhead_ne hh.symm)
            obtain ⟨ih1, ih2, ih3⟩ := ih d _ hmemrest hnd2 hniR hbnR
            refine ⟨?_, ?_, ?_⟩
            · intro hnone
              simp only [sync, hg, if_false, hL, hrf, Bool.false_eq_true, if_false]
              exact ih1 (hpres.trans hnone)
            · intro cOld hsome hrff
              simp only [sync, hg, if_false, hL, hrf, Bool.false_eq_true, if_false]
              obtain ⟨ha, hb, hcv⟩ := ih2 cOld (hpres.trans hsome) hrff
              exact ⟨ha, hb, List.mem_cons_of_mem _ (List.mem_cons_of_mem _ hcv)⟩
            · intro cOld hsome hrft
              simp only [sync, hg, if_false, hL, hrf, Bool.false_eq_true, if_false]
              obtain ⟨ha, hb⟩ := ih3 cOld (hpres.trans hsome) hrft
              exact ⟨ha, List.mem_cons_of_mem _ (List.mem_cons_of_mem _ hb)⟩
          · -- head conflicts and its backup rename fails: no write at all
            obtain ⟨ih1, ih2, ih3⟩ := ih d fs hmemrest hnd2 hniR hbnR
            refine ⟨?_, ?_, ?_⟩
            · intro hnone
              simp only [sync, hg, if_false, hL, hrf, if_true]
              exact ih1 hnone
            · intro cOld hsome hrff
              simp only [sync, hg, if_false, hL, hrf, if_true]
              obtain ⟨ha, hb, hcv⟩ := ih2 cOld hsome hrff
              exact ⟨ha, hb, List.mem_cons_of_mem _ hcv⟩
            · intro cOld hsome hrft
              simp only [sync, hg, if_false, hL, hrf, if_true]
              obtain ⟨ha, hb⟩ := ih3 cOld hsome hrft
              exact ⟨ha, List.mem_cons_of_mem _ hb⟩
  | dirCons n sub rest ihs ihr =>
    simp only [flatten, List.map_append, List.mem_append, not_or] at hmem hnd hni hbn
    have hnds := (List.nodup_append.1 hnd).1
    have hndr := (List.nodup_append.1 hnd).2.1
    have hdisj := (List.nodup_append.1 hnd).2.2
    have hniS : ∀ u ∈ flatten sub (d ++ [n]), destPath u ≠ dT ++ [nT] →
        bakPath u ≠ dT ++ [nT] ∧ bakPath u ≠ dT ++ [bakName nT] :=
      fun u hu => hni u (Or.inl hu)
    have hniR : ∀ u ∈ flatten rest d, destPath u ≠ dT ++ [nT] →
        bakPath u ≠ dT ++ [nT] ∧ bakPath u ≠ dT ++ [bakName nT] :=
      fun u hu => hni u (Or.inr hu)
    rcases hmem with hmems | hmemr
    · -- the designated file lives in the subdirectory
      have hpT_inSub : dT ++ [nT] ∈ (flatten sub (d ++ [n])).map destPath := by
        have : destPath (dT, nT, cT) ∈ (flatten sub (d ++ [n])).map destPath :=
          List.mem_map_of_mem _ hmems
        simpa [destPath] using this
      have hpT_notR : dT ++ [nT] ∉ (flatten rest d).map destPath :=
        fun hh => hdisj hpT_inSub hh
      have hrestbak := bakPaths_not_mem hniR hpT_notR
      have hframeP := sync_frame rf rest d (sync rf sub (d ++ [n]) fs).1 (dT ++ [nT])
        hpT_notR hrestbak.1
      have hframeB := sync_frame rf rest d (sync rf sub (d ++ [n]) fs).1
        (dT ++ [bakName nT]) hbn.2 hrestbak.2
      obtain ⟨ih1, ih2, ih3⟩ := ihs (d ++ [n]) fs hmems hnds hniS hbn.1
      refine ⟨?_, ?_, ?_⟩
      · intro hnone
        simp only [sync]
        rw [hframeP]
        exact ih1 hnone
      · intro cOld hsome hrff
        obtain ⟨ha, hb, hcv⟩ := ih2 cOld hsome hrff
        simp only [sync]
        rw [hframeP, hframeB]
        exact ⟨ha, hb, List.mem_append_left _ hcv⟩
      · intro cOld hsome hrft
        obtain ⟨ha, hb⟩ := ih3 cOld hsome hrft
        simp only [sync]
        rw [hframeP]
        exact ⟨ha, List.mem_append_left _ hb⟩
    · -- the designated file lives in the remaining entries
      have hpT_inR : dT ++ [nT] ∈ (flatten rest d).map destPath := by
        have : destPath (dT, nT, cT) ∈ (flatten rest d).map destPath :=
          List.mem_map_of_mem _ hmemr
        simpa [destPath] using this
      have hpT_notS : dT ++ [nT] ∉ (flatten sub (d ++ [n])).map destPath :=
        fun hh => hdisj hh hpT_inR
      have hsubbak := bakPaths_not_mem hniS hpT_notS
      have hpres := sync_frame rf sub (d ++ [n]) fs (dT ++ [nT]) hpT_notS hsubbak.1
      obtain ⟨ih1, ih2, ih3⟩ := ihr d (sync rf sub (d ++ [n]) fs).1 hmemr hndr hniR hbn.2
      refine ⟨?_, ?_, ?_⟩
      · intro hnone
        simp only [sync]
        exact ih1 (hpres.trans hnone)
      · intro cOld hsome hrff
        obtain ⟨ha, hb, hcv⟩ := ih2 cOld (hpres.trans hsome) hrff
        simp only [sync]
        exact ⟨ha, hb, List.mem_append_right _ hcv⟩
      · intro cOld hsome hrft
        obtain ⟨ha, hb⟩ := ih3 cOld (hpres.trans hsome) hrft
        simp only [sync]
        exact ⟨ha, List.mem_append_right _ hb⟩

/-- With an oracle that never fails a rename, the trace contains no
`backupFailed` event: the only backup error the code can report is a
failing rename. -/
theorem sync_no_backup_failed (rf : FPath → FPath → Bool)
    (hrf : ∀ a b, rf a b = false) (t : Forest) (d : FPath) (fs : FS) :
    ∀ p, Event.backupFailed p ∉ (sync rf t d fs).2 := by
  induction t generalizing d fs with
  | nil => simp [sync]
  | fileCons n c rest ih =>
    intro p
    by_cases hg : n = ".gitkeep"
    · simpa [sync, hg] using ih d fs p
    · rcases hL : lookupFS fs (d ++ [n]) with _ | old
      · simp only [sync, hg, if_false, hL, List.mem_cons, not_or]
        exact ⟨by simp, ih d _ p⟩
      · simp only [sync, hg, if_false, hL, hrf (d ++ [n]) (d ++ [bakName n]),
          Bool.false_eq_true, if_false, List.mem_cons, not_or]
        exact ⟨by simp, by simp, ih d _ p⟩
  | dirCons n sub rest ihs ihr =>
    intro p
    simp only [sync, List.mem_append, not_or]
    exact ⟨ihs (d ++ [n]) fs p, ihr d _ p⟩

/-- A concrete source tree for the C1 witness:
`commands/greet.md` plus a `.gitkeep` placeholder. -/
def claim1Tree : Forest :=
  Forest.dirCons "commands"
    (Forest.fileCons "greet.md" "hello" (Forest.fileCons ".gitkeep" "" Forest.nil))
    Forest.nil

/-- Witness for C1 at a concrete tree: the file arrives with its
content, and the trace is a single copy event (no backup). -/
theorem claim1_witness :
    ((flatten claim1Tree []).map destPath).Nodup
    ∧ lookupFS (sync noFail claim1Tree [] []).1 ["commands", "greet.md"] = some "hello"
    ∧ (sync noFail claim1Tree [] []).2 = [Event.copied ["commands", "greet.md"]] := by
  refine ⟨by decide, ?_, ?_⟩
  · exact (claim1_sync_into_empty_dest noFail claim1Tree (by decide)).1
      (["commands"], "greet.md", "hello") (by decide)
  · exact (claim1_sync_into_empty_dest noFail claim1Tree (by decide)).2.2

/-! ### C2: backing up a conflicting destination file -/

/-- Source tree for the C2 counterexample: both `a.md` and `a.bak.md`
are source files. -/
def claim2Src : Forest :=
  Forest.fileCons "a.md" "A2" (Forest.fileCons "a.bak.md" "B2" Forest.nil)

/-- Destination for the C2 counterexample: both names pre-exist. -/
def claim2Dst : FS := [(["a.md"], "A1"), (["a.bak.md"], "B1")]

/-- C2 as stated is false: take the pre-existing destination file
`F = a.bak.md` (content `B1`), whose relative path also occurs as a
non-placeholder source file, with every backup rename succeeding.
After the pass, no file holds `F`'s pre-synchronization content at
`F`'s derived backup name `a.bak.bak.md` — the sibling `a.md` was
renamed onto `a.bak.md` first, destroying `B1`, so `a.bak.bak.md`
holds the sibling's old content `A1` instead. -/
theorem claim2_counterexample :
    lookupFS claim2Dst ["a.bak.md"] = some "B1"
    ∧ (["a.bak.md"] : FPath) ∈ (flatten claim2Src []).map destPath
    ∧ bakName "a.bak.md" = "a.bak.bak.md"
    ∧ lookupFS (sync noFail claim2Src [] claim2Dst).1 ["a.bak.bak.md"] ≠ some "B1"
    ∧ lookupFS (sync noFail claim2Src [] claim2Dst).1 ["a.bak.bak.md"] = some "A1" := by
  refine ⟨by decide, by decide, by decide, by decide, by decide⟩

/-- C2 (amended): for a pre-existing destination file whose relative
path `dT/nT` is also a non-placeholder source file, whose backup
rename succeeds, and whose destination and backup paths are not
collided with by any other source file's destination or backup path,
the pass moves the old content to the derived backup path, writes the
source content at the destination, and records the rename (not a
copy) on the trace before the new file's copy. -/
theorem claim2_backup_and_copy (rf : FPath → FPath → Bool)
    (dT : FPath) (nT cT : String) (t : Forest) (fs : FS) (cOld : String)
    (hmem : (dT, nT, cT) ∈ flatten t [])
    (hnd : ((flatten t []).map destPath).Nodup)
    (hni : ∀ u ∈ flatten t [], destPath u ≠ dT ++ [nT] →
      bakPath u ≠ dT ++ [nT] ∧ bakPath u ≠ dT ++ [bakName nT])
    (hbn : dT ++ [bakName nT] ∉ (flatten t []).map destPath)
    (hpre : lookupFS fs (dT ++ [nT]) = some cOld)
    (hrf : rf (dT ++ [nT]) (dT ++ [bakName nT]) = false) :
    lookupFS (sync rf t [] fs).1 (dT ++ [bakName nT]) = some cOld
    ∧ lookupFS (sync rf t [] fs).1 (dT ++ [nT]) = some cT
    ∧ Event.backedUp (dT ++ [nT]) (dT ++ [bakName nT]) ∈ (sync rf t [] fs).2 := by
  obtain ⟨ha, hb, hc⟩ := (sync_target rf dT nT cT t [] fs hmem hnd hni hbn).2.1 cOld hpre hrf
  exact ⟨hb, ha, hc⟩

/-- Source tree for the C2 witness. -/
def claim2WTree : Forest := Forest.fileCons "greet.md" "new" Forest.nil

/-- Destination for the C2 witness: `greet.md` pre-exists. -/
def claim2WFS : FS := [(["greet.md"], "old")]

/-- Witness for the amended C2 at a concrete conflict. -/
theorem claim2_witness :
    ((([], "greet.md", "new") ∈ flatten claim2WTree []
        ∧ ((flatten claim2WTree []).map destPath).Nodup)
      ∧ lookupFS claim2WFS ([] ++ ["greet.md"]) = some "old")
    ∧ lookupFS (sync noFail claim2WTree [] claim2WFS).1 ([] ++ [bakName "greet.md"]) = some "old"
    ∧ lookupFS (sync noFail claim2WTree [] claim2WFS).1 ([] ++ ["greet.md"]) = some "new"
    ∧ Event.backedUp ([] ++ ["greet.md"]) ([] ++ [bakName "greet.md"])
        ∈ (sync noFail claim2WTree [] claim2WFS).2 := by
  obtain ⟨ha, hb, hc⟩ := claim2_backup_and_copy noFail [] "greet.md" "new"
    claim2WTree claim2WFS "old" (by decide) (by decide) (by decide) (by decide)
    (by decide) rfl
  exact ⟨⟨⟨by decide, by decide⟩, by decide⟩, ha, hb, hc⟩

/-! ### C3: collisions at an occupied backup name -/

/-- Source for the C3 counterexample: a single conflicting file. -/
def claim3Src : Forest := Forest.fileCons "a.md" "new" Forest.nil

/-- Destination for the C3 counterexample: the backup name
`a.bak.md` is already occupied by `precious`. -/
def claim3Dst : FS := [(["a.md"], "old"), (["a.bak.md"], "precious")]

/-- C3 as stated is false: with the backup name `a.bak.md` already
occupied, the pass silently replaces the occupant via `renameSync`
(the occupant's content `precious` is lost) and reports no error: the
trace is exactly a successful backup log plus a copy. -/
theorem claim3_counterexample :
    lookupFS claim3Dst ([] ++ [bakName "a.md"]) = some "precious"
    ∧ lookupFS (sync noFail claim3Src [] claim3Dst).1 ["a.bak.md"] = some "old"
    ∧ lookupFS (sync noFail claim3Src [] claim3Dst).1 ["a.bak.md"] ≠ some "precious"
    ∧ (sync noFail claim3Src [] claim3Dst).2
        = [Event.backedUp ["a.md"] ["a.bak.md"], Event.copied ["a.md"]] := by
  refine ⟨by decide, by decide, by decide, by decide⟩

/-- C3 (amended): when a conflicting destination file's derived backup
name is already occupied, the backup rename silently replaces the
occupant — afterwards the backup path holds the conflicting file's old
content, not the prior occupant's — and no error is reported: with
renames succeeding, the trace contains no `backupFailed` event at all.
(Non-interference hypotheses as in the amended C2.) -/
theorem claim3_backup_overwrites_occupant (dT : FPath) (nT cT : String)
    (t : Forest) (fs : FS) (cOld cPrior : String)
    (hmem : (dT, nT, cT) ∈ flatten t [])
    (hnd : ((flatten t []).map destPath).Nodup)
    (hni : ∀ u ∈ flatten t [], destPath u ≠ dT ++ [nT] →
      bakPath u ≠ dT ++ [nT] ∧ bakPath u ≠ dT ++ [bakName nT])
    (hbn : dT ++ [bakName nT] ∉ (flatten t []).map destPath)
    (hpre : lookupFS fs (dT ++ [nT]) = some cOld)
    (_hocc : lookupFS fs (dT ++ [bakName nT]) = some cPrior) :
    lookupFS (sync noFail t [] fs).1 (dT ++ [bakName nT]) = some cOld
    ∧ (∀ p, Event.backupFailed p ∉ (sync noFail t [] fs).2) := by
  obtain ⟨_, hb, _⟩ :=
    (sync_target noFail dT nT cT t [] fs hmem hnd hni hbn).2.1 cOld hpre rfl
  exact ⟨hb, sync_no_backup_failed noFail (fun _ _ => rfl) t [] fs⟩

/-- Witness for the amended C3 at a concrete occupied backup name. -/
theorem claim3_witness :
    ((([], "a.md", "new") ∈ flatten claim3Src []
        ∧ lookupFS claim3Dst ([] ++ ["a.md"]) = some "old")
      ∧ lookupFS claim3Dst ([] ++ [bakName "a.md"]) = some "precious")
    ∧ lookupFS (sync noFail claim3Src [] claim3Dst).1 ([] ++ [bakName "a.md"]) = some "old"
    ∧ Event.backupFailed ([] ++ ["a.md"]) ∉ (sync noFail claim3Src [] claim3Dst).2 := by
  obtain ⟨ha, hb⟩ := claim3_backup_overwrites_occupant [] "a.md" "new"
    claim3Src claim3Dst "old" "precious" (by decide) (by decide) (by decide)
    (by decide) (by decide) (by decide)
  exact ⟨⟨⟨by decide, by decide⟩, by decide⟩, ha, hb ([] ++ ["a.md"])⟩

/-! ### C8: a failing backup rename -/

/-- Source for the C8 counterexample: the failing file first, then a
sibling whose backup rename lands on the failing file's path. -/
def claim8Src : Forest :=
  Forest.fileCons "a.bak.md" "Y" (Forest.fileCons "a.md" "X" Forest.nil)

/-- Destination for the C8 counterexample: both names pre-exist. -/
def claim8Dst : FS := [(["a.bak.md"], "O2"), (["a.md"], "O1")]

/-- Failure oracle for the C8 counterexample: only the rename of
`a.bak.md` fails. -/
def claim8rf : FPath → FPath → Bool := fun p _ => decide (p = ["a.bak.md"])

/-- C8 as stated is false in its parenthetical: for the entry
`a.bak.md` whose backup rename fails, the failure is logged and the
file is not copied — but the existing destination file is NOT left in
place after the pass: the sibling `a.md`'s backup rename overwrites it
(`O2` is replaced by `O1`). -/
theorem claim8_counterexample :
    claim8rf ([] ++ ["a.bak.md"]) ([] ++ [bakName "a.bak.md"]) = true
    ∧ lookupFS claim8Dst ["a.bak.md"] = some "O2"
    ∧ Event.backupFailed ["a.bak.md"] ∈ (sync claim8rf claim8Src [] claim8Dst).2
    ∧ lookupFS (sync claim8rf claim8Src [] claim8Dst).1 ["a.bak.md"] ≠ some "O2"
    ∧ lookupFS (sync claim8rf claim8Src [] claim8Dst).1 ["a.bak.md"] ≠ some "Y"
    ∧ lookupFS (sync claim8rf claim8Src [] claim8Dst).1 ["a.bak.md"] = some "O1" := by
  refine ⟨by decide, by decide, by decide, by decide, by decide, by decide⟩

/-- C8 (amended): for a source file whose backup rename fails, the
pass logs the failure, does not copy that file, and — provided no
sibling's backup rename targets that file's path — leaves the existing
destination content in place; it continues with the remaining entries
(any other source file with a fresh, non-collided destination still
gets copied), and no exception escapes (the pass is a total function
returning these results). -/
theorem claim8_rename_failure_nonfatal (rf : FPath → FPath → Bool)
    (dT : FPath) (nT cT : String) (t : Forest) (fs : FS) (cOld : String)
    (hmem : (dT, nT, cT) ∈ flatten t [])
    (hnd : ((flatten t []).map destPath).Nodup)
    (hni : ∀ u ∈ flatten t [], destPath u ≠ dT ++ [nT] →
      bakPath u ≠ dT ++ [nT] ∧ bakPath u ≠ dT ++ [bakName nT])
    (hbn : dT ++ [bakName nT] ∉ (flatten t []).map destPath)
    (hpre : lookupFS fs (dT ++ [nT]) = some cOld)
    (hrf : rf (dT ++ [nT]) (dT ++ [bakName nT]) = true) :
    Event.backupFailed (dT ++ [nT]) ∈ (sync rf t [] fs).2
    ∧ lookupFS (sync rf t [] fs).1 (dT ++ [nT]) = some cOld
    ∧ (∀ dU nU cU, (dU, nU, cU) ∈ flatten t [] →
        (∀ u ∈ flatten t [], destPath u ≠ dU ++ [nU] →
          bakPath u ≠ dU ++ [nU] ∧ bakPath u ≠ dU ++ [bakName nU]) →
        dU ++ [bakName nU] ∉ (flatten t []).map destPath →
        lookupFS fs (dU ++ [nU]) = none →
        lookupFS (sync rf t [] fs).1 (dU ++ [nU]) = some cU) := by
  obtain ⟨ha, hb⟩ := (sync_target rf dT nT cT t [] fs hmem hnd hni hbn).2.2 cOld hpre hrf
  refine ⟨hb, ha, ?_⟩
  intro dU nU cU hmemU hniU hbnU hfreshU
  exact (sync_target rf dU nU cU t [] fs hmemU hnd hniU hbnU).1 hfreshU

/-- Source for the C8 witness: a failing file and a fresh sibling. -/
def claim8WSrc : Forest :=
  Forest.fileCons "fail.md" "NEW" (Forest.fileCons "ok.md" "OK" Forest.nil)

/-- Destination for the C8 witness: only `fail.md` pre-exists. -/
def claim8WDst : FS := [(["fail.md"], "OLDF")]

/-- Failure oracle for the C8 witness: only `fail.md`'s rename fails. -/
def claim8Wrf : FPath → FPath → Bool := fun p _ => decide (p = ["fail.md"])

/-- Witness for the amended C8: the failure is logged, the old content
stays, and the sibling is still copied. -/
theorem claim8_witness :
    ((([], "fail.md", "NEW") ∈ flatten claim8WSrc []
        ∧ lookupFS claim8WDst ([] ++ ["fail.md"]) = some "OLDF")
      ∧ claim8Wrf ([] ++ ["fail.md"]) ([] ++ [bakName "fail.md"]) = true)
    ∧ Event.backupFailed ([] ++ ["fail.md"]) ∈ (sync claim8Wrf claim8WSrc [] claim8WDst).2
    ∧ lookupFS (sync claim8Wrf claim8WSrc [] claim8WDst).1 ([] ++ ["fail.md"]) = some "OLDF"
    ∧ lookupFS (sync claim8Wrf claim8WSrc [] claim8WDst).1 ([] ++ ["ok.md"]) = some "OK" := by
  obtain ⟨ha, hb, hc⟩ := claim8_rename_failure_nonfatal claim8Wrf [] "fail.md" "NEW"
    claim8WSrc claim8WDst "OLDF" (by decide) (by decide) (by decide) (by decide)
    (by decide) (by decide)
  exact ⟨⟨⟨by decide, by decide⟩, by decide⟩, ha, hb,
    hc [] "ok.md" "OK" (by decide) (by decide) (by decide) (by decide)⟩

/-! ### C9: a second run is not idempotent -/

/-- Source for the C9 counterexample: `a.md` and `a.bak.md` collide
across runs. -/
def claim9Src : Forest :=
  Forest.fileCons "a.md" "x" (Forest.fileCons "a.bak.md" "y" Forest.nil)

/-- C9 as stated is false: run the synchronizer twice from an empty
destination.  For the source file `a.md` (content `x`), the claim
requires the derived backup `a.bak.md` to hold the first run's copy of
that same content `x` after the second run; instead it holds `y`,
because the source also contains a file named `a.bak.md` that is
re-copied over the backup. -/
theorem claim9_counterexample :
    (([], "a.md", "x") ∈ flatten claim9Src [])
    ∧ bakName "a.md" = "a.bak.md"
    ∧ lookupFS (sync noFail claim9Src [] (sync noFail claim9Src [] []).1).1 ["a.bak.md"]
        = some "y"
    ∧ lookupFS (sync noFail claim9Src [] (sync noFail claim9Src [] []).1).1 ["a.bak.md"]
        ≠ some "x" := by
  refine ⟨by decide, by decide, by decide, by decide⟩

/-- C9 (amended): running the pass twice from an empty destination
with no intervening changes is not idempotent — provided no source
file's backup path collides with a source destination path and backup
paths are pairwise distinct, the second run backs every
non-placeholder source file up and re-copies it: afterwards the
destination holds both `name.ext` (the re-copied content) and
`name.bak.ext` (the first run's copy of that same content), the
backup rename is on the second trace, and the backup did not exist
after the first run. -/
theorem claim9_double_run_backs_up (t : Forest)
    (hnd : ((flatten t []).map destPath).Nodup)
    (hndb : ((flatten t []).map bakPath).Nodup)
    (hdisj : ∀ q ∈ (flatten t []).map bakPath, q ∉ (flatten t []).map destPath) :
    ∀ dU nU cU, (dU, nU, cU) ∈ flatten t [] →
      lookupFS (sync noFail t [] []).1 (dU ++ [bakName nU]) = none
      ∧ lookupFS (sync noFail t [] (sync noFail t [] []).1).1 (dU ++ [nU]) = some cU
      ∧ lookupFS (sync noFail t [] (sync noFail t [] []).1).1 (dU ++ [bakName nU]) = some cU
      ∧ Event.backedUp (dU ++ [nU]) (dU ++ [bakName nU])
          ∈ (sync noFail t [] (sync noFail t [] []).1).2 := by
  intro dU nU cU hmemU
  have hbakU : bakPath (dU, nU, cU) ∈ (flatten t []).map bakPath :=
    List.mem_map_of_mem _ hmemU
  have hbnU : dU ++ [bakName nU] ∉ (flatten t []).map destPath := by
    have := hdisj _ hbakU
    simpa [bakPath] using this
  obtain ⟨h1, _⟩ := sync_fresh noFail t [] [] hnd (fun p _ => rfl)
  have hkeys : ((sync noFail t [] []).1).map Prod.fst
      = ((flatten t []).map destPath).reverse := by
    rw [h1]
    simp only [List.append_nil, List.map_reverse, List.map_map]
    congr 1
  have hrun1bak : lookupFS (sync noFail t [] []).1 (dU ++ [bakName nU]) = none := by
    apply lookupFS_eq_none_of_not_mem
    rw [hkeys]
    simpa using hbnU
  have hrun1dest : lookupFS (sync noFail t [] []).1 (dU ++ [nU]) = some cU := by
    rw [h1]
    apply lookupFS_of_mem_nodup
    · simp only [List.append_nil, List.map_reverse, List.nodup_reverse, List.map_map]
      simpa [Function.comp] using hnd
    · simp only [List.append_nil, List.mem_reverse, List.mem_map]
      exact ⟨(dU, nU, cU), hmemU, rfl⟩
  have hinj : ∀ w ∈ flatten t [], ∀ u ∈ flatten t [], bakPath w = bakPath u → w = u :=
    fun w hw u hu hwu => List.inj_on_of_nodup_map hndb hw hu hwu
  have hni : ∀ u ∈ flatten t [], destPath u ≠ dU ++ [nU] →
      bakPath u ≠ dU ++ [nU] ∧ bakPath u ≠ dU ++ [bakName nU] := by
    intro u hu hney
    constructor
    · intro hh
      have hpUP : dU ++ [nU] ∈ (flatten t []).map destPath := by
        have : destPath (dU, nU, cU) ∈ (flatten t []).map destPath :=
          List.mem_map_of_mem _ hmemU
        simpa [destPath] using this
      have hnotP := hdisj _ (List.mem_map_of_mem _ hu)
      rw [hh] at hnotP
      exact hnotP hpUP
    · intro hh
      have hbu : bakPath u = bakPath (dU, nU, cU) := by
        simpa [bakPath] using hh
      have := hinj u hu _ hmemU hbu
      rw [this] at hney
      exact hney (by simp [destPath])
  obtain ⟨ha, hb, hc⟩ := (sync_target noFail dU nU cU t [] (sync noFail t [] []).1
    hmemU hnd hni hbnU).2.1 cU hrun1dest rfl
  exact ⟨hrun1bak, ha, hb, hc⟩

/-- Source for the C9 witness. -/
def claim9WSrc : Forest := Forest.fileCons "a.md" "hello" Forest.nil

/-- Witness for the amended C9 at a one-file tree. -/
theorem claim9_witness :
    (((flatten claim9WSrc []).map destPath).Nodup
      ∧ ((flatten claim9WSrc []).map bakPath).Nodup
      ∧ (∀ q ∈ (flatten claim9WSrc []).map bakPath, q ∉ (flatten claim9WSrc []).map destPath)
      ∧ ([], "a.md", "hello") ∈ flatten claim9WSrc [])
    ∧ lookupFS (sync noFail claim9WSrc [] []).1 ([] ++ [bakName "a.md"]) = none
    ∧ lookupFS (sync noFail claim9WSrc [] (sync noFail claim9WSrc [] []).1).1
        ([] ++ ["a.md"]) = some "hello"
    ∧ lookupFS (sync noFail claim9WSrc [] (sync noFail claim9WSrc [] []).1).1
        ([] ++ [bakName "a.md"]) = some "hello" := by
  obtain ⟨ha, hb, hc, _⟩ := claim9_double_run_backs_up claim9WSrc
    (by decide) (by decide) (by decide) [] "a.md" "hello" (by decide)
  exact ⟨⟨by decide, by decide, by decide, by decide⟩, ha, hb, hc⟩

/-! ### C6: the nested-configuration locator -/

/-- Shape invariant of `findNestedRulers`'s recursion: every result is
the current path extended by a chain of traversed directory names and
a final `.ruler` segment; every traversed name is none of the excluded
names, and a dot-prefixed traversed name can only be `.ruler`; no
result is the root's own top-level `.ruler`; and a `.ruler` segment is
traversed only at the root itself (the top-level configuration
directory is descended into, matched ones are not). -/
theorem findNestedAux_inv (root : List String) (t : Forest) :
    ∀ cur r, r ∈ findNestedAux root cur t →
      ∃ p, r = cur ++ p ++ [".ruler"]
        ∧ (∀ s ∈ p, s ≠ "node_modules" ∧ s ≠ "dist" ∧ s ≠ ".git"
            ∧ (dotLead s = true → s = ".ruler"))
        ∧ r ≠ root ++ [".ruler"]
        ∧ (∀ pre x suf, p = pre ++ x :: suf → x = ".ruler" → cur ++ pre = root) := by
  induction t with
  | nil =>
    intro cur r hr
    simp [findNestedAux] at hr
  | fileCons n c rest ih =>
    intro cur r hr
    exact ih cur r (by simpa [findNestedAux] using hr)
  | dirCons n sub rest ihs ihr =>
    intro cur r hr
    simp only [findNestedAux, List.mem_append] at hr
    rcases hr with hr | hr
    · by_cases h1 : dotLead n = true ∧ n ≠ ".ruler"
      · rw [if_pos h1] at hr; cases hr
      · rw [if_neg h1] at hr
        by_cases h2 : n = "node_modules" ∨ n = "dist" ∨ n = ".git"
        · rw [if_pos h2] at hr; cases hr
        · rw [if_neg h2] at hr
          by_cases h3 : n = ".ruler" ∧ cur ++ [n] ≠ root ++ [".ruler"]
          · rw [if_pos h3] at hr
            have hreq : r = cur ++ [n] := by simpa using hr
            refine ⟨[], ?_, ?_, ?_, ?_⟩
            · rw [hreq, h3.1]; simp
            · intro s hs; cases hs
            · rw [hreq]
              exact h3.2
            · intro pre x suf hps _
              exact absurd hps.symm (by simp)
          · rw [if_neg h3] at hr
            obtain ⟨p', hp1, hp2, hp3, hp4⟩ := ihs (cur ++ [n]) r hr
            push_neg at h1 h2
            refine ⟨n :: p', ?_, ?_, hp3, ?_⟩
            · rw [hp1]; simp
            · intro s hs
              rcases List.mem_cons.1 hs with hs | hs
              · subst hs
                exact ⟨h2.1, h2.2.1, h2.2.2, h1⟩
              · exact hp2 s hs
            · intro pre x suf hps hx
              cases pre with
              | nil =>
                simp only [List.nil_append] at hps ⊢
                have hn : n = x := (List.cons.injEq .. ▸ hps).1
                rw [hn, hx] at h3
                push_neg at h3
                have := h3 rfl
                have hcur : cur ++ [".ruler"] = root ++ [".ruler"] := by
                  rw [← hx, ← hn] at this ⊢
                  exact this
                simpa using (List.append_inj' hcur rfl).1
              | cons a pre' =>
                have hpair := List.cons.injEq .. ▸ hps
                have hna : n = a := hpair.1
                have hp' : p' = pre' ++ x :: suf := hpair.2
                have := hp4 pre' x suf hp' hx
                rw [← this, ← hna]
                simp
    · exact ihr cur r hr

/-- C6: every result of the locator lies below the root through a
chain of directories none of which is `node_modules`, `dist` or
`.git`, in which every dot-prefixed directory is named `.ruler`, and
even that only as the root's own top-level configuration directory
(matched nested `.ruler` directories are recorded and not descended
into, so no result passes through another matched one); the result
itself ends in `.ruler` and is never the root's own `R/.ruler`. -/
theorem claim6_locator_exclusions (root : List String) (t : Forest) :
    ∀ r ∈ findNestedRulers root t,
      ∃ p, r = root ++ p ++ [".ruler"]
        ∧ (∀ s ∈ p, s ≠ "node_modules" ∧ s ≠ "dist" ∧ s ≠ ".git"
            ∧ (dotLead s = true → s = ".ruler"))
        ∧ r ≠ root ++ [".ruler"]
        ∧ (∀ pre x suf, p = pre ++ x :: suf → x = ".ruler" → pre = []) := by
  intro r hr
  obtain ⟨p, h1, h2, h3, h4⟩ := findNestedAux_inv root t root r hr
  refine ⟨p, h1, h2, h3, ?_⟩
  intro pre x suf hps hx
  have hroot := h4 pre x suf hps hx
  have : root ++ pre = root ++ [] := by simpa using hroot
  simpa using this

/-- A concrete tree for the C6 witness: a nested `.ruler` under
`packages/app`, decoys under `node_modules` and under the root's own
`.ruler`. -/
def claim6Tree : Forest :=
  Forest.dirCons "packages"
    (Forest.dirCons "app"
      (Forest.dirCons ".ruler" (Forest.fileCons "r.md" "z" Forest.nil) Forest.nil)
      Forest.nil)
    (Forest.dirCons "node_modules"
      (Forest.dirCons "x" (Forest.dirCons ".ruler" Forest.nil Forest.nil) Forest.nil)
      (Forest.dirCons ".ruler" (Forest.fileCons "x.md" "q" Forest.nil) Forest.nil))

/-- Witness for C6 at a concrete tree. -/
theorem claim6_witness :
    (["proj", "packages", "app", ".ruler"] ∈ findNestedRulers ["proj"] claim6Tree)
    ∧ ∃ p, (["proj", "packages", "app", ".ruler"] : List String)
          = ["proj"] ++ p ++ [".ruler"]
        ∧ (∀ s ∈ p, s ≠ "node_modules" ∧ s ≠ "dist" ∧ s ≠ ".git"
            ∧ (dotLead s = true → s = ".ruler"))
        ∧ (["proj", "packages", "app", ".ruler"] : List String) ≠ ["proj"] ++ [".ruler"]
        ∧ (∀ pre x suf, p = pre ++ x :: suf → x = ".ruler" → pre = []) := by
  refine ⟨by decide, ?_⟩
  exact claim6_locator_exclusions ["proj"] claim6Tree
    ["proj", "packages", "app", ".ruler"] (by decide)

/-! ### C7 and C10: per-agent destination resolution -/

/-- C7: for each of `cursor`, `claude`, `codex`: an agent whose
configuration marks it explicitly disabled (`enabled === false`) is
resolved to a skip by the commands stage — a no-op, not an error (the
loop `continue`s before any copy or error path) — and an agent with no
path override and no disable flag resolves to the built-in default
path for the pair, joined onto the base directory. -/
theorem claim7_resolver_skip_and_default :
    ∀ a ∈ defaultAgents, ∀ (config : RulerConfig) (cwd : String),
      (((lookupAgent config.agents a).getD {}).enabled = some (TomlVal.bool false) →
        agentCommandAction config cwd a = AgentAction.skip)
      ∧ (((lookupAgent config.agents a).getD {}).enabled = none →
          ((lookupAgent config.agents a).getD {}).command_path = none →
          ∃ dflt, DEFAULT_COMMAND_PATHS a = some dflt
            ∧ agentCommandAction config cwd a = AgentAction.copy (joinStr cwd dflt)) := by
  intro a ha config cwd
  simp only [defaultAgents, List.mem_cons, List.not_mem_nil, or_false] at ha
  constructor
  · intro h
    simp [agentCommandAction, h]
  · intro h1 h2
    rcases ha with rfl | rfl | rfl
    · exact ⟨".cursor/commands", rfl,
        by simp [agentCommandAction, h1, h2, jsOrPath, DEFAULT_COMMAND_PATHS]⟩
    · exact ⟨".claude/commands", rfl,
        by simp [agentCommandAction, h1, h2, jsOrPath, DEFAULT_COMMAND_PATHS]⟩
    · exact ⟨".codex/commands", rfl,
        by simp [agentCommandAction, h1, h2, jsOrPath, DEFAULT_COMMAND_PATHS]⟩

/-- Configuration for the C7 witness: `claude` disabled, `cursor`
unconfigured. -/
def claim7Cfg : RulerConfig :=
  { agents := [("claude", { enabled := some (TomlVal.bool false) })] }

/-- Witness for C7: the disabled agent is skipped, the unconfigured
agent resolves to its default path. -/
theorem claim7_witness :
    ("claude" ∈ defaultAgents
      ∧ ((lookupAgent claim7Cfg.agents "claude").getD {}).enabled = some (TomlVal.bool false)
      ∧ ((lookupAgent claim7Cfg.agents "cursor").getD {}).enabled = none
      ∧ ((lookupAgent claim7Cfg.agents "cursor").getD {}).command_path = none)
    ∧ agentCommandAction claim7Cfg "/w" "claude" = AgentAction.skip
    ∧ ∃ dflt, DEFAULT_COMMAND_PATHS "cursor" = some dflt
        ∧ agentCommandAction claim7Cfg "/w" "cursor" = AgentAction.copy (joinStr "/w" dflt) := by
  refine ⟨⟨by decide, by decide, by decide, by decide⟩, ?_, ?_⟩
  · exact (claim7_resolver_skip_and_default "claude" (by decide) claim7Cfg "/w").1 (by decide)
  · exact (claim7_resolver_skip_and_default "cursor" (by decide) claim7Cfg "/w").2
      (by decide) (by decide)

/-- C10: in the commands, skills and subagents stages alike, an agent
is skipped exactly when the `enabled` field of its resolved
configuration is the boolean `false`: a missing agent section (lookup
defaults to `{}`), a missing `enabled` key, or any value other than
the boolean `false` (a string, a number, or `true`) leaves the agent
treated as enabled. -/
theorem claim10_skip_iff_enabled_false :
    ∀ a ∈ defaultAgents, ∀ (config : RulerConfig) (cwd : String),
      (agentCommandAction config cwd a = AgentAction.skip
        ↔ ((lookupAgent config.agents a).getD {}).enabled = some (TomlVal.bool false))
      ∧ (agentSkillsAction config cwd a = AgentAction.skip
        ↔ ((lookupAgent config.agents a).getD {}).enabled = some (TomlVal.bool false))
      ∧ (agentSubagentsAction config cwd a = AgentAction.skip
        ↔ ((lookupAgent config.agents a).getD {}).enabled = some (TomlVal.bool false)) := by
  intro a _ config cwd
  refine ⟨⟨?_, ?_⟩, ⟨?_, ?_⟩, ⟨?_, ?_⟩⟩
  · intro hact
    by_cases h : ((lookupAgent config.agents a).getD {}).enabled = some (TomlVal.bool false)
    · exact h
    · exfalso
      simp only [agentCommandAction] at hact
      rw [if_neg h] at hact
      split at hact
      · exact AgentAction.noConfusion hact
      · exact AgentAction.noConfusion hact
  · intro h
    simp [agentCommandAction, h]
  · intro hact
    by_cases h : ((lookupAgent config.agents a).getD {}).enabled = some (TomlVal.bool false)
    · exact h
    · exfalso
      simp only [agentSkillsAction] at hact
      rw [if_neg h] at hact
      split at hact
      · exact AgentAction.noConfusion hact
      · exact AgentAction.noConfusion hact
  · intro h
    simp [agentSkillsAction, h]
  · intro hact
    by_cases h : ((lookupAgent config.agents a).getD {}).enabled = some (TomlVal.bool false)
    · exact h
    · exfalso
      simp only [agentSubagentsAction] at hact
      rw [if_neg h] at hact
      split at hact
      · exact AgentAction.noConfusion hact
      · exact AgentAction.noConfusion hact
  · intro h
    simp [agentSubagentsAction, h]

/-- Configuration for the C10 witness: the `enabled` value is the
STRING "false", not the boolean, as a mistyped `ruler.toml` would
produce through the unchecked cast. -/
def claim10Cfg : RulerConfig :=
  { agents := [("claude", { enabled := some (TomlVal.str "false") })] }

/-- Witness for C10: a non-boolean `enabled` value does not skip the
agent in any of the three stages. -/
theorem claim10_witness :
    ("claude" ∈ defaultAgents
      ∧ ((lookupAgent claim10Cfg.agents "claude").getD {}).enabled
          ≠ some (TomlVal.bool false))
    ∧ agentCommandAction claim10Cfg "/w" "claude" ≠ AgentAction.skip
    ∧ agentSkillsAction claim10Cfg "/w" "claude" ≠ AgentAction.skip
    ∧ agentSubagentsAction claim10Cfg "/w" "claude" ≠ AgentAction.skip := by
  have h := claim10_skip_iff_enabled_false "claude" (by decide) claim10Cfg "/w"
  refine ⟨⟨by decide, by decide⟩, ?_, ?_, ?_⟩
  · intro hact
    exact absurd (h.1.mp hact) (by decide)
  · intro hact
    exact absurd (h.2.1.mp hact) (by decide)
  · intro hact
    exact absurd (h.2.2.mp hact) (by decide)

/-- Witness for C5 at the spec's own examples: `report.md` and
`README`. -/
theorem claim5_witness :
    (("report" : String) ≠ "" ∧ (∀ c ∈ ("md" : String).data, c ≠ '.')
      ∧ (∀ c ∈ ("README" : String).data, c ≠ '.'))
    ∧ bakName ("report" ++ "." ++ "md") = "report" ++ ".bak." ++ "md"
    ∧ bakName "README" = "README" ++ ".bak" := by
  refine ⟨⟨by decide, by decide, by decide⟩, ?_, ?_⟩
  · exact claim5_bakname_derivation.1 "report" "md" (by decide) (by decide)
  · exact claim5_bakname_derivation.2 "README" (by decide)

end TkhrnRuler
